import Mathlib

/-!
Verification of the session-history replay and state-reconstruction engine.

The development shallowly embeds the reconstruction-relevant routines of
`review_gui.py` (`_read_jsonl`, `_extract_user_text`, `_is_noise`,
`_find_meaningful_prompts`, `_extract_tool_calls`, the window segmentation of
`_parse_jsonl_prompts`, and `_reconstruct_prompt_diff`) and the snapshot hook
of `hook_snapshot.py` (`main`).  Python dictionaries are modelled as
insertion-ordered association lists, Python sets as lists ordered by first
insertion (only membership is ever relied upon), and file/JSON IO is
abstracted to explicit inputs, as documented at each definition.
-/

/-- Python `dict` mapping absolute path strings to content strings
(`file_states`, `before_files`, `after_files`, and the snapshot store). -/
abbrev FS := List (String × String)

/-- Python `dict.get(k)` / `k in d`: return the value of the first (unique)
binding of `key`, if any. -/
def fsGet : FS → String → Option String
  | [], _ => none
  | (k, v) :: rest, key => if k = key then some v else fsGet rest key

/-- Python `d[k] = v`: overwrite the binding of `key` in place if present,
otherwise append a new binding (dicts preserve insertion order). -/
def fsSet : FS → String → String → FS
  | [], key, v => [(key, v)]
  | (k, w) :: rest, key, v =>
    if k = key then (key, v) :: rest else (k, w) :: fsSet rest key v

/-- Python `str.strip()`: drop leading and trailing whitespace. -/
def pyStrip (s : String) : String :=
  ⟨((s.data.dropWhile Char.isWhitespace).reverse.dropWhile Char.isWhitespace).reverse⟩

/-- Python `str.startswith(pat)`. -/
def pyStartswith (s pat : String) : Bool :=
  pat.data.isPrefixOf s.data

/-- Python `" ".join(parts)`. -/
def joinSpace : List String → String
  | [] => ""
  | [s] => s
  | s :: rest => s ++ " " ++ joinSpace rest

/-- The `input` object of a `tool_use` block, as read by the source: each of
`file_path`, `content`, `old_string`, `new_string` is accessed with
`.get(key, "")`, so an absent key is modelled as `""`; `replace_all` is
accessed with `.get("replace_all")` and used for its truthiness, modelled as
a `Bool` that is `false` when the key is absent. -/
structure ToolInput where
  file_path : String
  content : String
  old_string : String
  new_string : String
  replace_all : Bool
deriving DecidableEq, Repr

/-- One element of a `message.content` list: a `{"type": "text", ...}` block,
a `{"type": "tool_use", ...}` block, or any other shape (non-dict or
unrecognized `type`), which every loop in the source skips. -/
inductive Block where
  | text (s : String)
  | toolUse (name : String) (input : ToolInput)
  | other
deriving DecidableEq, Repr

/-- The `message.content` field: a string, a list of blocks, or any other
shape. -/
inductive MsgContent where
  | str (s : String)
  | blocks (bs : List Block)
  | other
deriving DecidableEq, Repr

/-- One parsed JSONL record as consumed by the source: the `type`
discriminator selects `user` (with `message.content`, `cwd`, `timestamp`,
each read with a `""`/`{}` default) or `assistant` (with `message.content`);
every other record type is skipped by both consumers. -/
inductive Record where
  | user (content : MsgContent) (cwd : String) (timestamp : String)
  | assistant (content : MsgContent)
  | other
deriving DecidableEq, Repr

/-- A value returned by `json.loads`: a structured object (a dict, which the
rest of the program consumes as a `Record`) or any other JSON value —
`json.loads` also accepts numbers, strings, booleans, arrays and `null` at
the top level. -/
inductive Json where
  | obj (r : Record)
  | str (s : String)
  | num (n : Int)
  | bool (b : Bool)
  | arr
  | null
deriving DecidableEq, Repr

/-- Whether a parsed JSON value is a structured object (a dict). -/
def Json.isObj : Json → Bool
  | .obj _ => true
  | _ => false

/-- `_read_jsonl` (review_gui.py lines 82-94).  The file system is abstracted:
the source is `none` when `open` raises `OSError`, otherwise the list of
lines, each being `none` when `json.loads` raises `JSONDecodeError` and
`some v` when it parses to the JSON value `v`.  The function appends every
successfully parsed value and skips failures, returning `[]` when the file
cannot be opened. -/
def readJsonl (source : Option (List (Option Json))) : List Json :=
  match source with
  | none => []
  | some parsedLines => parsedLines.filterMap id

/-- `_NOISE_PATTERNS` (review_gui.py lines 48-54). -/
def noisePatterns : List String :=
  ["[Request interrupted",
   "<command-message>",
   "<command-name>",
   "<task-notification>",
   "<system-reminder>"]

/-- `_is_noise` (review_gui.py lines 71-79): empty after stripping, or
starting with one of the noise markers. -/
def isNoise (text : String) : Bool :=
  let stripped := pyStrip text
  if stripped.data = [] then true
  else noisePatterns.any fun pat => pyStartswith stripped pat

/-- `_extract_user_text` (review_gui.py lines 57-68): a string content is
returned as is; a list contributes its `text` blocks joined by single
spaces; anything else yields `""`. -/
def extractUserText : MsgContent → String
  | .str s => s
  | .blocks bs =>
    joinSpace (bs.filterMap fun b =>
      match b with
      | .text s => some s
      | _ => none)
  | .other => ""

/-- `_find_meaningful_prompts` (review_gui.py lines 97-107): the `(i, text,
cwd, timestamp)` tuples of the non-noise user records, in log order. -/
def findMeaningfulPrompts (lines : List Record) : List (Nat × String × String × String) :=
  lines.enum.filterMap fun p =>
    match p.2 with
    | .user content cwd ts =>
      let text := extractUserText content
      if isNoise text then none else some (p.1, text, cwd, ts)
    | _ => none

/-- The tool calls contributed by one enumerated record: `Write`/`Edit`
`tool_use` blocks of an `assistant` record whose content is a list
(review_gui.py lines 113-125). -/
def toolCallsOfRecord (p : Nat × Record) : List (Nat × String × ToolInput) :=
  match p.2 with
  | .assistant (.blocks bs) =>
    bs.filterMap fun b =>
      match b with
      | .toolUse name inp =>
        if name = "Write" ∨ name = "Edit" then some (p.1, name, inp) else none
      | _ => none
  | _ => []

/-- `_extract_tool_calls` (review_gui.py lines 110-125): the `(line_index,
tool_name, tool_input)` triples of all `Write`/`Edit` calls, in log order. -/
def extractToolCalls (lines : List Record) : List (Nat × String × ToolInput) :=
  lines.enum.flatMap toolCallsOfRecord

/-- The log position of a tool call. -/
def callLine (c : Nat × String × ToolInput) : Nat := c.1

/-- The `file_path` of a tool call's input (`""` when absent). -/
def callFp (c : Nat × String × ToolInput) : String := c.2.2.file_path

/-- The prompt windows implicit in `_parse_jsonl_prompts` (review_gui.py
lines 143-146): one `(startIndex, endIndex)` pair per meaningful prompt,
`endIndex` being the next meaningful prompt's line index or the line count
for the last prompt. -/
def windowsFrom : List Nat → Nat → List (Nat × Nat)
  | [], _ => []
  | [i], len => [(i, len)]
  | i :: j :: rest, len => (i, j) :: windowsFrom (j :: rest) len

/-- The ordered prompt windows of a parsed log. -/
def promptWindows (lines : List Record) : List (Nat × Nat) :=
  windowsFrom ((findMeaningfulPrompts lines).map Prod.fst) lines.length

/-- How many of the windows contain log position `p`. -/
def countW (ws : List (Nat × Nat)) (p : Nat) : Nat :=
  (ws.filter fun w => decide (w.1 ≤ p) && decide (p < w.2)).length

/-- Python `s.replace(old, new, 1)` for a non-empty `old = o :: os`: replace
the leftmost occurrence only. -/
def replaceOnceNE (o : Char) (os newL : List Char) : List Char → List Char
  | [] => []
  | c :: cs =>
    if (o :: os).isPrefixOf (c :: cs) then newL ++ cs.drop os.length
    else c :: replaceOnceNE o os newL cs

/-- Fuel-indexed scan for `str.replace` with a non-empty pattern: replace
every non-overlapping occurrence, left to right, never rescanning the
replacement text.  The fuel only makes the recursion structural; it is
never exhausted when it starts at the length of the scanned list. -/
def replaceAllAux (o : Char) (os newL : List Char) : Nat → List Char → List Char
  | 0, s => s
  | _ + 1, [] => []
  | fuel + 1, c :: cs =>
    if (o :: os).isPrefixOf (c :: cs) then
      newL ++ replaceAllAux o os newL fuel (cs.drop os.length)
    else c :: replaceAllAux o os newL fuel cs

/-- Python `s.replace(old, new)` for a non-empty `old = o :: os`. -/
def replaceAllNE (o : Char) (os newL : List Char) (s : List Char) : List Char :=
  replaceAllAux o os newL s.length s

/-- Whether the non-empty pattern `o :: os` occurs in `s` (Python
`old in s`). -/
def occursNE (o : Char) (os : List Char) : List Char → Bool
  | [] => false
  | c :: cs => (o :: os).isPrefixOf (c :: cs) || occursNE o os cs

/-- Application of one tool call to the file-state dict (review_gui.py lines
219-233): `Write` stores `content` unconditionally; `Edit` replaces the
first or every occurrence of a non-empty `old_string` when the path's state
is defined, and is a no-op otherwise. -/
def applyCall (st : FS) (name : String) (inp : ToolInput) : FS :=
  if name = "Write" then fsSet st inp.file_path inp.content
  else if name = "Edit" then
    match fsGet st inp.file_path, inp.old_string.data with
    | some cur, o :: os =>
      if inp.replace_all then
        fsSet st inp.file_path ⟨replaceAllNE o os inp.new_string.data cur.data⟩
      else
        fsSet st inp.file_path ⟨replaceOnceNE o os inp.new_string.data cur.data⟩
    | _, _ => st
  else st

/-- One step of the replay fold: calls with an empty `file_path` are skipped
(`if not fp: continue`), every other call is applied to the state. -/
def stepFS (st : FS) (c : Nat × String × ToolInput) : FS :=
  if callFp c = "" then st else applyCall st c.2.1 c.2.2

/-- Replay of a list of tool calls over an initial state, in log order. -/
def replayCalls (st : FS) (calls : List (Nat × String × ToolInput)) : FS :=
  calls.foldl stepFS st

/-- The mutable state of the reconstruction loop: `file_states`,
`before_files`, and `files_in_prompt` (a Python set, modelled as the list of
its elements in first-insertion order; only membership is consumed, except
that the final `after` map is built by iterating it). -/
structure ReconState where
  fileStates : FS
  beforeFiles : FS
  filesInPrompt : List String

/-- The before-capture step (review_gui.py lines 212-217): if the call lies
in the target window and its path has not been touched in this window yet,
record `file_states.get(fp, "")` in `before_files` and mark the path. -/
def capture (target next : Nat) (c : Nat × String × ToolInput) (s : ReconState) : ReconState :=
  if target ≤ callLine c ∧ callLine c < next ∧ ¬ (callFp c ∈ s.filesInPrompt) then
    { s with
      beforeFiles := fsSet s.beforeFiles (callFp c) ((fsGet s.fileStates (callFp c)).getD ""),
      filesInPrompt := s.filesInPrompt ++ [callFp c] }
  else s

/-- Processing of one non-skipped tool call (review_gui.py lines 212-233):
the before-capture followed by the application of the mutation to
`file_states`. -/
def stepState (target next : Nat) (c : Nat × String × ToolInput) (s : ReconState) :
    ReconState :=
  { capture target next c s with
    fileStates := applyCall (capture target next c s).fileStates c.2.1 c.2.2 }

/-- The tool-call loop of `_reconstruct_prompt_diff` (review_gui.py lines
207-237): skip calls with an empty path, capture the before state, apply the
mutation, and stop after processing a call whose line is at or past
`next` (the `break` runs after the call has been applied). -/
def reconLoop (target next : Nat) :
    List (Nat × String × ToolInput) → ReconState → ReconState
  | [], s => s
  | c :: rest, s =>
    if callFp c = "" then reconLoop target next rest s
    else
      if next ≤ callLine c then stepState target next c s
      else reconLoop target next rest (stepState target next c s)

/-- The requested window's end: the next meaningful prompt's line index, or
the line count for the last prompt (review_gui.py line 186). -/
def windowEnd (lines : List Record) (idx : Nat) : Nat :=
  match (findMeaningfulPrompts lines).get? (idx + 1) with
  | some m => m.1
  | none => lines.length

/-- `_reconstruct_prompt_diff` (review_gui.py lines 168-244).  The snapshot
directory walk (lines 189-201) is abstracted into the `snapshots` parameter:
the initial `file_states` dict mapping each checkpointed original absolute
path to its checkpoint content.  Returns `(before_files, after_files)`, or
`([], [])` when `prompt_index` is out of range. -/
def reconstructPromptDiff (lines : List Record) (snapshots : FS) (idx : Nat) : FS × FS :=
  match (findMeaningfulPrompts lines).get? idx with
  | none => ([], [])
  | some m =>
    let s := reconLoop m.1 (windowEnd lines idx) (extractToolCalls lines)
      ⟨snapshots, [], []⟩
    (s.beforeFiles, s.filesInPrompt.map fun fp => (fp, (fsGet s.fileStates fp).getD ""))

/-- `os.path.isabs` on POSIX: the path starts with a separator. -/
def isPyAbs (p : String) : Bool := pyStartswith p "/"

/-- Python `path.lstrip("/")`: drop every leading separator. -/
def stripLeadingSep (p : String) : String := ⟨p.data.dropWhile (· = '/')⟩

/-- The checkpoint destination for a `(session, path)` pair
(hook_snapshot.py lines 58-63), written relative to the snapshots root. -/
def snapshotDest (sessionId filePath : String) : String :=
  sessionId ++ "/files/" ++ stripLeadingSep filePath

/-- The snapshot-writing logic of `hook_snapshot.py::main` (lines 41-69).
The real file system is abstracted into `disk` (content of existing files
by absolute path; `none` models `os.path.exists` returning false) and
`store` (the checkpoint store keyed by destination path relative to the
snapshots root).  The `meta.json` bookkeeping and the time-based cleanup
(lines 71-86) do not touch per-path checkpoint contents and are outside this
model.  Returns the updated store. -/
def hookMain (disk store : FS) (sessionId toolName filePath : String) : FS :=
  if ¬ (toolName = "Write" ∨ toolName = "Edit") then store
  else if filePath = "" ∨ isPyAbs filePath = false then store
  else
    match fsGet disk filePath with
    | none => store
    | some content =>
      let dest := snapshotDest sessionId filePath
      if (fsGet store dest).isSome then store
      else fsSet store dest content

/-- A genuine user prompt record with the given text. -/
def rUser (t : String) : Record := .user (.str t) "" ""

/-- An assistant record holding a single `Write` tool call. -/
def rWrite (fp content : String) : Record :=
  .assistant (.blocks [.toolUse "Write" ⟨fp, content, "", "", false⟩])

/-- An assistant record holding a single `Edit` tool call. -/
def rEdit (fp old new ra : String) : Record :=
  .assistant (.blocks [.toolUse "Edit" ⟨fp, "", old, new, ra = "all"⟩])

example : pyStrip "  hi " = "hi" := by decide
example : isNoise "<system-reminder> x" = true := by decide
example : isNoise "rename var" = false := by decide
example : replaceOnceNE 'a' ['b'] ['X'] "ababab".data = "Xabab".data := by decide
example : replaceAllNE 'a' ['b'] ['X'] "ababab".data = "XXX".data := by decide
example : findMeaningfulPrompts [rUser "a", rWrite "/a" "v", rUser "b"] =
    [(0, "a", "", ""), (2, "b", "", "")] := by decide

/-- The spec's end-to-end scenario log: prompt0 "add function", Write(/a.py,
"v1"), prompt1 "rename var", Edit(/a.py, "v1" to "v2", replace once),
Write(/b.py, "new"). -/
def demoLog : List Record :=
  [rUser "add function",
   rWrite "/a.py" "v1",
   rUser "rename var",
   rEdit "/a.py" "v1" "v2" "once",
   rWrite "/b.py" "new"]

/-- A log whose first window is followed by a further mutation of the same
path: prompt0, Write(/a.py, "v1"), prompt1, Write(/a.py, "v2"). -/
def demoLogLeak : List Record :=
  [rUser "do it",
   rWrite "/a.py" "v1",
   rUser "again",
   rWrite "/a.py" "v2"]

/-- A log with a mutation before the first genuine prompt: Write(/a.py, "x"),
then the prompt "hi". -/
def demoLogEarlyWrite : List Record :=
  [rWrite "/a.py" "x",
   rUser "hi"]

example : reconstructPromptDiff demoLog [] 1 =
    ([("/a.py", "v1"), ("/b.py", "")],
     [("/a.py", "v2"), ("/b.py", "new")]) := by decide
example : reconstructPromptDiff demoLogLeak [] 0 =
    ([("/a.py", "")], [("/a.py", "v2")]) := by decide
example : promptWindows demoLog = [(0, 2), (2, 5)] := by decide
example : promptWindows demoLogEarlyWrite = [(1, 2)] := by decide
example : extractToolCalls demoLogEarlyWrite =
    [(0, "Write", ⟨"/a.py", "x", "", "", false⟩)] := by decide

lemma fsGet_fsSet_self (fs : FS) (k v : String) : fsGet (fsSet fs k v) k = some v := by
  induction fs with
  | nil => simp [fsSet, fsGet]
  | cons p rest ih =>
    by_cases h : p.1 = k <;> simp [fsSet, fsGet, h, ih]

lemma fsGet_fsSet_ne (fs : FS) (k v k' : String) (h : k ≠ k') :
    fsGet (fsSet fs k v) k' = fsGet fs k' := by
  induction fs with
  | nil => simp [fsSet, fsGet, h]
  | cons p rest ih =>
    by_cases hp : p.1 = k <;> simp [fsSet, fsGet, hp, h, ih]

lemma fsSet_eq_self : ∀ (fs : FS) (k v : String), fsGet fs k = some v → fsSet fs k v = fs
  | [], k, v, h => by simp [fsGet] at h
  | (k', w) :: rest, k, v, h => by
    by_cases hp : k' = k
    · subst hp
      have hv : w = v := by simpa [fsGet] using h
      subst hv
      simp [fsSet]
    · have h' : fsGet rest k = some v := by simpa [fsGet, hp] using h
      simp [fsSet, hp, fsSet_eq_self rest k v h']

lemma fsSet_eq_append (fs : FS) (k v : String) (h : fsGet fs k = none) :
    fsSet fs k v = fs ++ [(k, v)] := by
  induction fs with
  | nil => simp [fsSet]
  | cons p rest ih =>
    by_cases hp : p.1 = k
    · simp [fsGet, hp] at h
    · simp [fsGet, hp] at h
      simp [fsSet, hp, ih h]

lemma fsGet_eq_none_iff (fs : FS) (k : String) :
    fsGet fs k = none ↔ k ∉ fs.map Prod.fst := by
  induction fs with
  | nil => simp [fsGet]
  | cons p rest ih =>
    by_cases hp : p.1 = k
    · simp [fsGet, hp]
    · simp only [fsGet, if_neg hp, List.map_cons, List.mem_cons, not_or, ih]
      constructor
      · intro h
        exact ⟨fun he => hp he.symm, h⟩
      · intro h
        exact h.2

lemma replaceOnceNE_of_not_occurs (o : Char) (os newL : List Char) :
    ∀ s : List Char, occursNE o os s = false → replaceOnceNE o os newL s = s := by
  intro s
  induction s with
  | nil => intro _; rfl
  | cons c cs ih =>
    intro h
    simp only [occursNE, Bool.or_eq_false_iff] at h
    simp [replaceOnceNE, h.1, ih h.2]

lemma replaceAllAux_of_not_occurs (o : Char) (os newL : List Char) :
    ∀ (fuel : Nat) (s : List Char), occursNE o os s = false →
      replaceAllAux o os newL fuel s = s := by
  intro fuel
  induction fuel with
  | zero => intro s _; rfl
  | succ n ih =>
    intro s h
    cases s with
    | nil => rfl
    | cons c cs =>
      simp only [occursNE, Bool.or_eq_false_iff] at h
      simp [replaceAllAux, h.1, ih cs h.2]

lemma replaceAllNE_of_not_occurs (o : Char) (os newL : List Char) (s : List Char)
    (h : occursNE o os s = false) : replaceAllNE o os newL s = s :=
  replaceAllAux_of_not_occurs o os newL s.length s h

/-- Python `old in s` for an arbitrary pattern (an empty pattern always
occurs). -/
def occursIn : List Char → List Char → Bool
  | [], _ => true
  | o :: os, s => occursNE o os s

/-- C6: from a defined state `"ababab"`, the edit `old="ab", new="X"` yields
`"Xabab"` when `replace_all` is unset (only the leftmost occurrence is
replaced) and `"XXX"` when it is set (every non-overlapping occurrence is
replaced, left to right), exactly as the host `str.replace` does. -/
theorem edit_replace_semantics :
    applyCall [("/f.py", "ababab")] "Edit" ⟨"/f.py", "", "ab", "X", false⟩ =
      [("/f.py", "Xabab")]
    ∧ applyCall [("/f.py", "ababab")] "Edit" ⟨"/f.py", "", "ab", "X", true⟩ =
      [("/f.py", "XXX")] := by
  constructor <;> decide

/-- C7: an `Edit` call leaves `file_states` unchanged (and raises nothing —
`applyCall` is total) whenever the path's state is undefined, or the old
substring is empty, or the old substring does not occur in the current
state. -/
theorem edit_noop (st : FS) (inp : ToolInput)
    (h : fsGet st inp.file_path = none
      ∨ inp.old_string = ""
      ∨ ∃ cur, fsGet st inp.file_path = some cur
          ∧ occursIn inp.old_string.data cur.data = false) :
    applyCall st "Edit" inp = st := by
  have hname : ¬ (("Edit" : String) = "Write") := by decide
  rcases h with h | h | h
  · simp [applyCall, hname, h]
  · have hdata : inp.old_string.data = [] := by rw [h]
    cases hst : fsGet st inp.file_path <;> simp [applyCall, hname, hst, hdata]
  · obtain ⟨cur, hst, hnoc⟩ := h
    cases hold : inp.old_string.data with
    | nil => simp [applyCall, hname, hst, hold]
    | cons o os =>
      rw [hold] at hnoc
      have hnoc' : occursNE o os cur.data = false := hnoc
      have h1 : replaceAllNE o os inp.new_string.data cur.data = cur.data :=
        replaceAllNE_of_not_occurs _ _ _ _ hnoc'
      have h2 : replaceOnceNE o os inp.new_string.data cur.data = cur.data :=
        replaceOnceNE_of_not_occurs _ _ _ _ hnoc'
      have hset : fsSet st inp.file_path cur = st := fsSet_eq_self _ _ _ hst
      by_cases hra : inp.replace_all <;>
        simp [applyCall, hname, hst, hold, hra, h1, h2, hset]

/-- Witness for C7 at a concrete input: the state `"hello"` with an edit
whose old substring `"xyz"` is absent is left unchanged. -/
theorem edit_noop_witness :
    applyCall [("/x", "hello")] "Edit" ⟨"/x", "", "xyz", "Q", false⟩ =
      [("/x", "hello")] :=
  edit_noop [("/x", "hello")] ⟨"/x", "", "xyz", "Q", false⟩
    (Or.inr (Or.inr ⟨"hello", by decide, by decide⟩))

/-- C9: the snapshot hook's check-then-create discipline is idempotent — once
the checkpoint for a `(session, path)` pair holds content `c`, any later
hook invocation for the same session and path (any tool name, any current
disk content) leaves that stored content unchanged. -/
theorem snapshot_first_write_wins (disk store : FS) (sid tn fp c : String)
    (h : fsGet store (snapshotDest sid fp) = some c) :
    fsGet (hookMain disk store sid tn fp) (snapshotDest sid fp) = some c := by
  unfold hookMain
  split
  · exact h
  · split
    · exact h
    · split
      · exact h
      · simp [h]

/-- Witness for C9 at a concrete input: a second invocation for the same
session and path with different disk content does not overwrite the stored
checkpoint. -/
theorem snapshot_first_write_wins_witness :
    fsGet (hookMain [("/a.py", "changed")] [("s1/files/a.py", "orig")]
        "s1" "Edit" "/a.py") (snapshotDest "s1" "/a.py") = some "orig" :=
  snapshot_first_write_wins [("/a.py", "changed")] [("s1/files/a.py", "orig")]
    "s1" "Edit" "/a.py" "orig" (by decide)

/-- C4 counterexample: the line `42` parses as JSON (to a number, not a
structured object) and is kept by the reader, so not every element of the
returned sequence is a structured object. -/
theorem readJsonl_keeps_nonobject :
    readJsonl (some [some (Json.num 42)]) = [Json.num 42]
    ∧ (Json.num 42).isObj = false := by
  constructor <;> decide

/-- C4 amended: the reader returns `[]` when the source cannot be opened,
and on an opened source its output is characterized line by line — an empty
source yields `[]`, a line that fails to parse as JSON is skipped with
reading continuing on the remaining lines, and a line that parses to the
value `j` contributes exactly `j`, placed before the values of all later
lines.  These equations determine the output uniquely: it holds exactly the
successfully parsed values, in input order (skipping the lines that fail to
parse as JSON — not the lines that fail to parse as structured objects),
and in particular its length never exceeds the input line count. -/
theorem readJsonl_tolerant :
    readJsonl none = []
    ∧ readJsonl (some []) = []
    ∧ (∀ ls : List (Option Json), readJsonl (some (none :: ls)) = readJsonl (some ls))
    ∧ (∀ (j : Json) (ls : List (Option Json)),
        readJsonl (some (some j :: ls)) = j :: readJsonl (some ls))
    ∧ (∀ ls : List (Option Json), (readJsonl (some ls)).length ≤ ls.length) := by
  refine ⟨rfl, rfl, ?_, ?_, ?_⟩
  · intro ls
    simp [readJsonl]
  · intro j ls
    simp [readJsonl]
  · intro ls
    simpa [readJsonl] using List.length_filterMap_le id ls

/-- C1 at its failing input: on `demoLogLeak`, window 0 is `[0, 2)`, yet the
returned after map holds `"v2"` — the value written by the mutation at log
position 3, at or past `endIndex = 2` — because the loop's `break` runs only
after the out-of-window call has been applied.  Replaying exactly the
mutations strictly before `endIndex` yields `"v1"`, the value the claim
requires. -/
theorem after_includes_post_window_mutation :
    reconstructPromptDiff demoLogLeak [] 0 = ([("/a.py", "")], [("/a.py", "v2")])
    ∧ replayCalls []
        ((extractToolCalls demoLogLeak).filter
          fun c => decide (callLine c < windowEnd demoLogLeak 0))
      = [("/a.py", "v1")] := by
  constructor <;> decide

/-- C3 counterexample: in the spec's end-to-end scenario the returned before
map is not `{"/a.py": "v1"}` — it also contains `"/b.py"` mapped to the
empty string, because `/b.py` is first mutated inside the window with no
checkpoint and no prior state. -/
theorem scenario_before_has_created_file :
    fsGet (reconstructPromptDiff demoLog [] 1).1 "/b.py" = some ""
    ∧ (reconstructPromptDiff demoLog [] 1).1 ≠ [("/a.py", "v1")] := by
  constructor <;> decide

/-- C3 amended: reconstructing window 1 of the scenario log with an empty
checkpoint store returns before = `{"/a.py": "v1", "/b.py": ""}` and after =
`{"/a.py": "v2", "/b.py": "new"}` (the after map stated by its two lookups
and its size, since the source iterates a Python set to build it). -/
theorem scenario_reconstruction :
    (reconstructPromptDiff demoLog [] 1).1 = [("/a.py", "v1"), ("/b.py", "")]
    ∧ fsGet (reconstructPromptDiff demoLog [] 1).2 "/a.py" = some "v2"
    ∧ fsGet (reconstructPromptDiff demoLog [] 1).2 "/b.py" = some "new"
    ∧ (reconstructPromptDiff demoLog [] 1).2.length = 2 := by
  refine ⟨by decide, by decide, by decide, by decide⟩

/-- C5 counterexample: in `demoLogEarlyWrite` the `Write` at log position 0
precedes the only genuine prompt (position 1), so its position lies in no
window at all — the windows' union does not cover every mutation event. -/
theorem mutation_before_first_prompt_uncovered :
    0 ∈ (extractToolCalls demoLogEarlyWrite).map callLine
    ∧ countW (promptWindows demoLogEarlyWrite) 0 = 0 := by
  constructor <;> decide

lemma windowsFrom_length : ∀ (idxs : List Nat) (len : Nat),
    (windowsFrom idxs len).length = idxs.length
  | [], _ => rfl
  | [_], _ => rfl
  | i :: j :: rest, len => by
    have ih := windowsFrom_length (j :: rest) len
    simp only [windowsFrom, List.length_cons, ih]

lemma windowsFrom_eq_zip : ∀ (idxs : List Nat) (len : Nat),
    windowsFrom idxs len = idxs.zip (idxs.drop 1 ++ [len])
  | [], _ => rfl
  | [_], _ => rfl
  | i :: j :: rest, len => by
    have ih := windowsFrom_eq_zip (j :: rest) len
    simp only [windowsFrom, List.drop_succ_cons, List.drop_zero, List.cons_append,
      List.zip_cons_cons] at ih ⊢
    rw [ih]

lemma countW_nil (p : Nat) : countW [] p = 0 := rfl

lemma countW_cons (w : Nat × Nat) (ws : List (Nat × Nat)) (p : Nat) :
    countW (w :: ws) p = (if w.1 ≤ p ∧ p < w.2 then 1 else 0) + countW ws p := by
  by_cases h1 : w.1 ≤ p <;> by_cases h2 : p < w.2 <;>
    simp [countW, List.filter_cons, h1, h2, Nat.add_comm]

lemma countW_windowsFrom (len : Nat) :
    ∀ (rest : List Nat) (i0 p : Nat),
      List.Pairwise (· < ·) (i0 :: rest) → (∀ j ∈ i0 :: rest, j < len) →
      countW (windowsFrom (i0 :: rest) len) p =
        if i0 ≤ p ∧ p < len then 1 else 0 := by
  intro rest
  induction rest with
  | nil =>
    intro i0 p _ _
    simp [windowsFrom, countW_cons, countW_nil]
  | cons j rest' ih =>
    intro i0 p hpw hlt
    have hij : i0 < j := (List.pairwise_cons.mp hpw).1 j (by simp)
    have hpw' : List.Pairwise (· < ·) (j :: rest') := (List.pairwise_cons.mp hpw).2
    have hlt' : ∀ x ∈ j :: rest', x < len := fun x hx => hlt x (by simp [hx])
    have hjlen : j < len := hlt' j (by simp)
    have hstep : windowsFrom (i0 :: j :: rest') len =
        (i0, j) :: windowsFrom (j :: rest') len := rfl
    rw [hstep, countW_cons, ih j p hpw' hlt']
    split_ifs <;> omega

lemma map_fst_filterMap_sublist {α β : Type} (g : Nat × α → Option (Nat × β))
    (hg : ∀ p q, g p = some q → q.1 = p.1) :
    ∀ l : List (Nat × α), ((l.filterMap g).map Prod.fst).Sublist (l.map Prod.fst)
  | [] => by simp
  | p :: rest => by
    have ih := map_fst_filterMap_sublist g hg rest
    cases hgp : g p with
    | none =>
      simp only [List.filterMap_cons, hgp, List.map_cons]
      exact ih.cons p.1
    | some q =>
      simp only [List.filterMap_cons, hgp, List.map_cons]
      rw [hg p q hgp]
      exact ih.cons₂ p.1

lemma meaningful_idxs_sublist (lines : List Record) :
    ((findMeaningfulPrompts lines).map Prod.fst).Sublist (List.range lines.length) := by
  have h := map_fst_filterMap_sublist
    (fun p : Nat × Record =>
      match p.2 with
      | .user content cwd ts =>
        let text := extractUserText content
        if isNoise text then none else some (p.1, text, cwd, ts)
      | _ => none)
    (by
      intro p q hq
      rcases p with ⟨i, r⟩
      cases r with
      | user content cwd ts =>
        simp only at hq
        split at hq
        · exact Option.noConfusion hq
        · cases hq
          rfl
      | assistant _ => exact Option.noConfusion hq
      | other => exact Option.noConfusion hq)
    lines.enum
  rw [List.enum_map_fst] at h
  exact h

lemma meaningful_idxs_pairwise (lines : List Record) :
    ((findMeaningfulPrompts lines).map Prod.fst).Pairwise (· < ·) :=
  List.Pairwise.sublist (meaningful_idxs_sublist lines)
    (List.pairwise_lt_range lines.length)

lemma meaningful_idxs_lt (lines : List Record) :
    ∀ i ∈ (findMeaningfulPrompts lines).map Prod.fst, i < lines.length := fun _ hi =>
  List.mem_range.mp ((meaningful_idxs_sublist lines).subset hi)

lemma toolCallsOfRecord_fst (pr : Nat × Record) (c : Nat × String × ToolInput)
    (hc : c ∈ toolCallsOfRecord pr) : c.1 = pr.1 := by
  rcases pr with ⟨i, r⟩
  cases r with
  | user _ _ _ => simp [toolCallsOfRecord] at hc
  | other => simp [toolCallsOfRecord] at hc
  | assistant content =>
    cases content with
    | str s => simp [toolCallsOfRecord] at hc
    | other => simp [toolCallsOfRecord] at hc
    | blocks bs =>
      simp only [toolCallsOfRecord] at hc
      rcases List.mem_filterMap.mp hc with ⟨b, _, hbc⟩
      cases b with
      | text s => exact Option.noConfusion hbc
      | other => exact Option.noConfusion hbc
      | toolUse name inp =>
        simp only at hbc
        split at hbc
        · cases hbc
          rfl
        · exact Option.noConfusion hbc

lemma toolCall_line_lt (lines : List Record) :
    ∀ c ∈ extractToolCalls lines, callLine c < lines.length := by
  intro c hc
  rcases List.mem_flatMap.mp hc with ⟨pr, hpr, hcp⟩
  have hfst : c.1 = pr.1 := toolCallsOfRecord_fst pr c hcp
  have hmem : pr.1 ∈ lines.enum.map Prod.fst := List.mem_map_of_mem Prod.fst hpr
  rw [List.enum_map_fst] at hmem
  have := List.mem_range.mp hmem
  simpa [callLine, hfst]

/-- C8: for a log with at least one genuine prompt, the segmenter emits one
window per genuine prompt; the windows are exactly the prompt positions
zipped with the next prompt's position (or the log length for the last), so
each `endIndex` is the next genuine prompt's position; the `[start, end)`
ranges are pairwise disjoint; and a position is covered exactly once iff it
lies in `[firstPromptIndex, logLength)`. -/
theorem window_partition (lines : List Record)
    (hne : (findMeaningfulPrompts lines).map Prod.fst ≠ []) :
    (promptWindows lines).length = (findMeaningfulPrompts lines).length
    ∧ promptWindows lines =
        ((findMeaningfulPrompts lines).map Prod.fst).zip
          (((findMeaningfulPrompts lines).map Prod.fst).drop 1 ++ [lines.length])
    ∧ (∀ p, countW (promptWindows lines) p ≤ 1)
    ∧ (∀ p, countW (promptWindows lines) p = 1 ↔
        ((findMeaningfulPrompts lines).map Prod.fst).headD 0 ≤ p ∧ p < lines.length) := by
  obtain ⟨i0, rest, hcons⟩ := List.exists_cons_of_ne_nil hne
  have hpw := meaningful_idxs_pairwise lines
  have hlt := meaningful_idxs_lt lines
  rw [hcons] at hpw hlt
  refine ⟨?_, ?_, ?_, ?_⟩
  · unfold promptWindows
    rw [windowsFrom_length, List.length_map]
  · unfold promptWindows
    exact windowsFrom_eq_zip _ _
  · intro p
    unfold promptWindows
    rw [hcons, countW_windowsFrom lines.length rest i0 p hpw hlt]
    split <;> omega
  · intro p
    unfold promptWindows
    rw [hcons, countW_windowsFrom lines.length rest i0 p hpw hlt]
    simp only [List.headD_cons]
    split_ifs with h <;> simp [h]

/-- Witness for C8 on the scenario log: two genuine prompts give two
windows, and position 3 (the in-window edit) is covered exactly once. -/
theorem window_partition_witness :
    (promptWindows demoLog).length = (findMeaningfulPrompts demoLog).length
    ∧ countW (promptWindows demoLog) 3 = 1 := by
  have h := window_partition demoLog (by decide)
  exact ⟨h.1, (h.2.2.2 3).mpr (by decide)⟩

/-- C5 amended: the windows are pairwise disjoint, and a mutation event's
log position is covered by exactly one window iff it lies at or after the
first genuine prompt's position; a mutation before the first genuine prompt
(or any mutation when no genuine prompt exists) is covered by no window. -/
theorem mutation_window_coverage (lines : List Record) (p : Nat)
    (hp : p ∈ (extractToolCalls lines).map callLine) :
    countW (promptWindows lines) p ≤ 1
    ∧ (countW (promptWindows lines) p = 1 ↔
        ((findMeaningfulPrompts lines).map Prod.fst).headD lines.length ≤ p) := by
  have hplen : p < lines.length := by
    rcases List.mem_map.mp hp with ⟨c, hc, hcp⟩
    exact hcp ▸ toolCall_line_lt lines c hc
  have hpw := meaningful_idxs_pairwise lines
  have hlt := meaningful_idxs_lt lines
  cases hidxs : (findMeaningfulPrompts lines).map Prod.fst with
  | nil =>
    unfold promptWindows
    rw [hidxs]
    simp only [windowsFrom, countW_nil, List.headD_nil]
    omega
  | cons i0 rest =>
    rw [hidxs] at hpw hlt
    unfold promptWindows
    rw [hidxs, countW_windowsFrom lines.length rest i0 p hpw hlt]
    simp only [List.headD_cons]
    constructor
    · split <;> omega
    · split_ifs with h
      · simp [h.1]
      · have hnip : ¬ (i0 ≤ p) := fun hip => h ⟨hip, hplen⟩
        simp [hnip]

/-- Witness for C5's amended theorem: the edit at position 3 of the scenario
log lies at or after the first prompt and is covered exactly once. -/
theorem mutation_window_coverage_witness :
    countW (promptWindows demoLog) 3 ≤ 1 ∧ countW (promptWindows demoLog) 3 = 1 := by
  have h := mutation_window_coverage demoLog 3 (by decide)
  exact ⟨h.1, h.2.mpr (by decide)⟩

lemma capture_fileStates (t n : Nat) (c : Nat × String × ToolInput) (s : ReconState) :
    (capture t n c s).fileStates = s.fileStates := by
  unfold capture
  split <;> rfl

lemma capture_filesInPrompt_mono (t n : Nat) (c : Nat × String × ToolInput)
    (s : ReconState) (fp : String) (h : fp ∈ s.filesInPrompt) :
    fp ∈ (capture t n c s).filesInPrompt := by
  unfold capture
  split
  · simp [h]
  · exact h

lemma capture_beforeFiles_get (t n : Nat) (c : Nat × String × ToolInput)
    (s : ReconState) (fp : String) (h : fp ∈ s.filesInPrompt) :
    fsGet (capture t n c s).beforeFiles fp = fsGet s.beforeFiles fp := by
  unfold capture
  split
  · next hcond =>
    have hne : callFp c ≠ fp := fun he => hcond.2.2 (he ▸ h)
    simp [fsGet_fsSet_ne _ _ _ _ hne]
  · rfl

lemma capture_fip_not_new (t n : Nat) (c : Nat × String × ToolInput)
    (s : ReconState) (fp : String) (h : fp ∉ s.filesInPrompt)
    (hc : ¬ (callFp c = fp ∧ t ≤ callLine c ∧ callLine c < n)) :
    fp ∉ (capture t n c s).filesInPrompt := by
  unfold capture
  split
  · next hcond =>
    have hne : callFp c ≠ fp := fun he => hc ⟨he, hcond.1, hcond.2.1⟩
    simp only [List.mem_append, List.mem_singleton]
    rintro (hmem | hmem)
    · exact h hmem
    · exact hne hmem.symm
  · exact h

lemma capture_keys (t n : Nat) (c : Nat × String × ToolInput) (s : ReconState)
    (h : s.beforeFiles.map Prod.fst = s.filesInPrompt) :
    (capture t n c s).beforeFiles.map Prod.fst = (capture t n c s).filesInPrompt := by
  unfold capture
  split
  · next hcond =>
    have hnone : fsGet s.beforeFiles (callFp c) = none :=
      (fsGet_eq_none_iff _ _).mpr (h ▸ hcond.2.2)
    simp [fsSet_eq_append _ _ _ hnone, h]
  · exact h

lemma stepState_fileStates (t n : Nat) (c : Nat × String × ToolInput) (s : ReconState) :
    (stepState t n c s).fileStates = applyCall s.fileStates c.2.1 c.2.2 := by
  unfold stepState
  rw [capture_fileStates]

lemma stepState_beforeFiles (t n : Nat) (c : Nat × String × ToolInput) (s : ReconState) :
    (stepState t n c s).beforeFiles = (capture t n c s).beforeFiles := rfl

lemma stepState_filesInPrompt (t n : Nat) (c : Nat × String × ToolInput) (s : ReconState) :
    (stepState t n c s).filesInPrompt = (capture t n c s).filesInPrompt := rfl

lemma reconLoop_fileStates (t n : Nat) :
    ∀ (calls : List (Nat × String × ToolInput)) (s : ReconState),
      (∀ c ∈ calls, callLine c < n) →
      (reconLoop t n calls s).fileStates = replayCalls s.fileStates calls
  | [], _, _ => rfl
  | c :: rest, s, h => by
    have hc : callLine c < n := h c (by simp)
    have hrest : ∀ x ∈ rest, callLine x < n := fun x hx => h x (by simp [hx])
    have hnb : ¬ (n ≤ callLine c) := by omega
    by_cases hfp : callFp c = ""
    · rw [show reconLoop t n (c :: rest) s = reconLoop t n rest s by
        simp [reconLoop, hfp]]
      rw [reconLoop_fileStates t n rest s hrest]
      simp [replayCalls, stepFS, hfp]
    · rw [show reconLoop t n (c :: rest) s = reconLoop t n rest (stepState t n c s) by
        simp [reconLoop, hfp, hnb]]
      rw [reconLoop_fileStates t n rest _ hrest, stepState_fileStates]
      simp [replayCalls, stepFS, hfp]

lemma reconLoop_fip_not_mem (t n : Nat) (fp : String) :
    ∀ (calls : List (Nat × String × ToolInput)) (s : ReconState),
      fp ∉ s.filesInPrompt →
      (∀ c ∈ calls, ¬ (callFp c = fp ∧ t ≤ callLine c ∧ callLine c < n)) →
      fp ∉ (reconLoop t n calls s).filesInPrompt
  | [], _, hs, _ => hs
  | c :: rest, s, hs, h => by
    have hc := h c (by simp)
    have hrest : ∀ x ∈ rest, ¬ (callFp x = fp ∧ t ≤ callLine x ∧ callLine x < n) :=
      fun x hx => h x (by simp [hx])
    have hstep : fp ∉ (stepState t n c s).filesInPrompt := by
      rw [stepState_filesInPrompt]
      exact capture_fip_not_new t n c s fp hs hc
    by_cases hfp : callFp c = ""
    · rw [show reconLoop t n (c :: rest) s = reconLoop t n rest s by
        simp [reconLoop, hfp]]
      exact reconLoop_fip_not_mem t n fp rest s hs hrest
    · by_cases hnb : n ≤ callLine c
      · rw [show reconLoop t n (c :: rest) s = stepState t n c s by
          simp [reconLoop, hfp, hnb]]
        exact hstep
      · rw [show reconLoop t n (c :: rest) s = reconLoop t n rest (stepState t n c s) by
          simp [reconLoop, hfp, hnb]]
        exact reconLoop_fip_not_mem t n fp rest _ hstep hrest

lemma reconLoop_before_stable (t n : Nat) (fp : String) :
    ∀ (calls : List (Nat × String × ToolInput)) (s : ReconState),
      fp ∈ s.filesInPrompt →
      fsGet (reconLoop t n calls s).beforeFiles fp = fsGet s.beforeFiles fp
  | [], _, _ => rfl
  | c :: rest, s, hs => by
    have hstepb : fsGet (stepState t n c s).beforeFiles fp = fsGet s.beforeFiles fp := by
      rw [stepState_beforeFiles]
      exact capture_beforeFiles_get t n c s fp hs
    have hstepm : fp ∈ (stepState t n c s).filesInPrompt := by
      rw [stepState_filesInPrompt]
      exact capture_filesInPrompt_mono t n c s fp hs
    by_cases hfp : callFp c = ""
    · rw [show reconLoop t n (c :: rest) s = reconLoop t n rest s by
        simp [reconLoop, hfp]]
      exact reconLoop_before_stable t n fp rest s hs
    · by_cases hnb : n ≤ callLine c
      · rw [show reconLoop t n (c :: rest) s = stepState t n c s by
          simp [reconLoop, hfp, hnb]]
        exact hstepb
      · rw [show reconLoop t n (c :: rest) s = reconLoop t n rest (stepState t n c s) by
          simp [reconLoop, hfp, hnb]]
        rw [reconLoop_before_stable t n fp rest _ hstepm]
        exact hstepb

lemma reconLoop_keys (t n : Nat) :
    ∀ (calls : List (Nat × String × ToolInput)) (s : ReconState),
      s.beforeFiles.map Prod.fst = s.filesInPrompt →
      (reconLoop t n calls s).beforeFiles.map Prod.fst =
        (reconLoop t n calls s).filesInPrompt
  | [], _, hs => hs
  | c :: rest, s, hs => by
    have hstep : (stepState t n c s).beforeFiles.map Prod.fst =
        (stepState t n c s).filesInPrompt := by
      rw [stepState_beforeFiles, stepState_filesInPrompt]
      exact capture_keys t n c s hs
    by_cases hfp : callFp c = ""
    · rw [show reconLoop t n (c :: rest) s = reconLoop t n rest s by
        simp [reconLoop, hfp]]
      exact reconLoop_keys t n rest s hs
    · by_cases hnb : n ≤ callLine c
      · rw [show reconLoop t n (c :: rest) s = stepState t n c s by
          simp [reconLoop, hfp, hnb]]
        exact hstep
      · rw [show reconLoop t n (c :: rest) s = reconLoop t n rest (stepState t n c s) by
          simp [reconLoop, hfp, hnb]]
        exact reconLoop_keys t n rest _ hstep

lemma reconLoop_append (t n : Nat) :
    ∀ (pre rest : List (Nat × String × ToolInput)) (s : ReconState),
      (∀ c ∈ pre, callLine c < n) →
      reconLoop t n (pre ++ rest) s = reconLoop t n rest (reconLoop t n pre s)
  | [], _, _, _ => rfl
  | c :: pre', rest, s, h => by
    have hc : callLine c < n := h c (by simp)
    have hpre' : ∀ x ∈ pre', callLine x < n := fun x hx => h x (by simp [hx])
    have hnb : ¬ (n ≤ callLine c) := by omega
    by_cases hfp : callFp c = ""
    · rw [List.cons_append,
        show reconLoop t n (c :: (pre' ++ rest)) s = reconLoop t n (pre' ++ rest) s by
          simp [reconLoop, hfp],
        show reconLoop t n (c :: pre') s = reconLoop t n pre' s by
          simp [reconLoop, hfp]]
      exact reconLoop_append t n pre' rest s hpre'
    · rw [List.cons_append,
        show reconLoop t n (c :: (pre' ++ rest)) s =
            reconLoop t n (pre' ++ rest) (stepState t n c s) by
          simp [reconLoop, hfp, hnb],
        show reconLoop t n (c :: pre') s = reconLoop t n pre' (stepState t n c s) by
          simp [reconLoop, hfp, hnb]]
      exact reconLoop_append t n pre' rest _ hpre'

lemma pairwise_le_of_const {β : Type} (k : Nat) :
    ∀ l : List (Nat × β), (∀ x ∈ l, x.1 = k) → l.Pairwise (fun a b => a.1 ≤ b.1)
  | [], _ => List.Pairwise.nil
  | x :: rest, h => by
    refine List.Pairwise.cons ?_ (pairwise_le_of_const k rest fun y hy => h y (by simp [hy]))
    intro y hy
    rw [h x (by simp), h y (by simp [hy])]

lemma pairwise_le_flatMap {α β : Type} (g : Nat × α → List (Nat × β))
    (hg : ∀ p x, x ∈ g p → x.1 = p.1) :
    ∀ l : List (Nat × α), l.Pairwise (fun a b => a.1 < b.1) →
      (l.flatMap g).Pairwise (fun a b => a.1 ≤ b.1)
  | [], _ => by simp
  | p :: rest, hp => by
    rw [List.flatMap_cons, List.pairwise_append]
    refine ⟨pairwise_le_of_const p.1 (g p) (fun x hx => hg p x hx),
      pairwise_le_flatMap g hg rest (List.pairwise_cons.mp hp).2, ?_⟩
    intro a ha b hb
    rcases List.mem_flatMap.mp hb with ⟨q, hq, hbq⟩
    rw [hg p a ha, hg q b hbq]
    exact Nat.le_of_lt ((List.pairwise_cons.mp hp).1 q hq)

lemma toolCalls_pairwise (lines : List Record) :
    (extractToolCalls lines).Pairwise (fun a b => a.1 ≤ b.1) := by
  have henum : lines.enum.Pairwise (fun a b => a.1 < b.1) := by
    have h := List.pairwise_lt_range lines.length
    rw [← List.enum_map_fst lines] at h
    exact List.pairwise_map.mp h
  exact pairwise_le_flatMap toolCallsOfRecord
    (fun p x hx => toolCallsOfRecord_fst p x hx) lines.enum henum

lemma applyCall_fsGet_ne (st : FS) (name : String) (inp : ToolInput) (k : String)
    (h : inp.file_path ≠ k) : fsGet (applyCall st name inp) k = fsGet st k := by
  by_cases hw : name = "Write"
  · simp [applyCall, hw, fsGet_fsSet_ne _ _ _ _ h]
  · by_cases he : name = "Edit"
    · simp only [applyCall, if_neg hw, if_pos he]
      cases hst : fsGet st inp.file_path with
      | none => cases inp.old_string.data <;> simp
      | some cur =>
        cases hold : inp.old_string.data with
        | nil => simp
        | cons o os =>
          by_cases hra : inp.replace_all <;> simp [hra, fsGet_fsSet_ne _ _ _ _ h]
    · simp [applyCall, hw, he]

lemma replayCalls_fsGet_ne (k : String) :
    ∀ (calls : List (Nat × String × ToolInput)) (st : FS),
      (∀ c ∈ calls, callFp c ≠ k) →
      fsGet (replayCalls st calls) k = fsGet st k
  | [], _, _ => rfl
  | c :: rest, st, h => by
    have hrest : ∀ x ∈ rest, callFp x ≠ k := fun x hx => h x (by simp [hx])
    have hstep : fsGet (stepFS st c) k = fsGet st k := by
      by_cases hfp : callFp c = ""
      · simp [stepFS, hfp]
      · simp only [stepFS, if_neg hfp]
        exact applyCall_fsGet_ne st c.2.1 c.2.2 k (h c (by simp))
    calc fsGet (replayCalls st (c :: rest)) k
        = fsGet (replayCalls (stepFS st c) rest) k := rfl
      _ = fsGet (stepFS st c) k := replayCalls_fsGet_ne k rest (stepFS st c) hrest
      _ = fsGet st k := hstep

/-- C2 amended: for a valid window and the first in-window mutation of a
path (an in-window call `c` such that no earlier call is an in-window
mutation of the same path), the returned before value for that path is the
replayed File State just before that mutation — the result of replaying all
log-earlier mutations over the checkpoints.  It equals the checkpoint value
(or the empty string when no checkpoint exists) whenever no mutation of the
path occurs earlier in the log; when one does, the replayed value is
returned instead. -/
theorem before_capture (lines : List Record) (snapshots : FS) (idx : Nat)
    (m : Nat × String × String × String)
    (hm : (findMeaningfulPrompts lines).get? idx = some m)
    (pre : List (Nat × String × ToolInput)) (c : Nat × String × ToolInput)
    (post : List (Nat × String × ToolInput))
    (hsplit : extractToolCalls lines = pre ++ c :: post)
    (hfp : callFp c ≠ "")
    (hin : m.1 ≤ callLine c ∧ callLine c < windowEnd lines idx)
    (hfirst : ∀ x ∈ pre,
      ¬ (callFp x = callFp c ∧ m.1 ≤ callLine x ∧ callLine x < windowEnd lines idx)) :
    fsGet (reconstructPromptDiff lines snapshots idx).1 (callFp c) =
      some ((fsGet (replayCalls snapshots pre) (callFp c)).getD "")
    ∧ ((∀ x ∈ pre, callFp x ≠ callFp c) →
        fsGet (reconstructPromptDiff lines snapshots idx).1 (callFp c) =
          some ((fsGet snapshots (callFp c)).getD "")) := by
  have hpair := toolCalls_pairwise lines
  rw [hsplit] at hpair
  have hprelt : ∀ x ∈ pre, callLine x < windowEnd lines idx := by
    intro x hx
    have hle : callLine x ≤ callLine c :=
      (List.pairwise_append.mp hpair).2.2 x hx c (by simp)
    have := hin.2
    omega
  have hnb : ¬ (windowEnd lines idx ≤ callLine c) := by
    have := hin.2
    omega
  have hm' : (findMeaningfulPrompts lines)[idx]? = some m := by
    rw [← List.get?_eq_getElem?]
    exact hm
  have hfst : (reconstructPromptDiff lines snapshots idx).1 =
      (reconLoop m.1 (windowEnd lines idx) (extractToolCalls lines)
        ⟨snapshots, [], []⟩).beforeFiles := by
    simp [reconstructPromptDiff, hm']
  obtain ⟨S, hS⟩ : ∃ S, reconLoop m.1 (windowEnd lines idx) pre
      ⟨snapshots, [], []⟩ = S := ⟨_, rfl⟩
  have hSfs : S.fileStates = replayCalls snapshots pre := by
    rw [← hS]
    exact reconLoop_fileStates _ _ pre _ hprelt
  have hSfip : callFp c ∉ S.filesInPrompt := by
    rw [← hS]
    refine reconLoop_fip_not_mem _ _ _ pre _ (by simp) ?_
    intro x hx hcon
    exact hfirst x hx ⟨hcon.1, hcon.2.1, hcon.2.2⟩
  have hcapb : (capture m.1 (windowEnd lines idx) c S).beforeFiles =
      fsSet S.beforeFiles (callFp c) ((fsGet S.fileStates (callFp c)).getD "") := by
    unfold capture
    rw [if_pos ⟨hin.1, hin.2, hSfip⟩]
  have hcapf : callFp c ∈ (capture m.1 (windowEnd lines idx) c S).filesInPrompt := by
    unfold capture
    rw [if_pos ⟨hin.1, hin.2, hSfip⟩]
    simp
  have hmem : callFp c ∈ (stepState m.1 (windowEnd lines idx) c S).filesInPrompt := by
    rw [stepState_filesInPrompt]
    exact hcapf
  have hmain : fsGet (reconLoop m.1 (windowEnd lines idx) (extractToolCalls lines)
      ⟨snapshots, [], []⟩).beforeFiles (callFp c) =
      some ((fsGet (replayCalls snapshots pre) (callFp c)).getD "") := by
    rw [hsplit, reconLoop_append _ _ pre (c :: post) _ hprelt, hS,
      show reconLoop m.1 (windowEnd lines idx) (c :: post) S =
          reconLoop m.1 (windowEnd lines idx) post
            (stepState m.1 (windowEnd lines idx) c S) by
        simp [reconLoop, hfp, hnb],
      reconLoop_before_stable _ _ _ post _ hmem,
      stepState_beforeFiles, hcapb, fsGet_fsSet_self, hSfs]
  constructor
  · rw [hfst]
    exact hmain
  · intro hnone
    rw [hfst, hmain, replayCalls_fsGet_ne (callFp c) pre snapshots hnone]

/-- Witness for C2's amended theorem on the scenario log: the first
in-window mutation of `/a.py` in window 1 is the edit at position 3, and the
captured before value is the replayed `"v1"` (not the absent checkpoint's
empty string). -/
theorem before_capture_witness :
    fsGet (reconstructPromptDiff demoLog [] 1).1 "/a.py" = some "v1" := by
  have h := before_capture demoLog [] 1 (2, "rename var", "", "") (by decide)
    [(1, "Write", ⟨"/a.py", "v1", "", "", false⟩)]
    (3, "Edit", ⟨"/a.py", "", "v1", "v2", false⟩)
    [(4, "Write", ⟨"/b.py", "new", "", "", false⟩)]
    (by decide) (by decide) (by decide) (by decide)
  exact h.1.trans (by decide)

/-- C10: the before and after maps returned by a reconstruction always carry
exactly the same keys, in the same order — the paths whose first in-window
mutation was observed. -/
theorem before_after_same_keys (lines : List Record) (snapshots : FS) (idx : Nat) :
    ((reconstructPromptDiff lines snapshots idx).1).map Prod.fst =
      ((reconstructPromptDiff lines snapshots idx).2).map Prod.fst := by
  cases hm : (findMeaningfulPrompts lines).get? idx with
  | none =>
    have hm' : (findMeaningfulPrompts lines)[idx]? = none := by
      rw [← List.get?_eq_getElem?]
      exact hm
    simp [reconstructPromptDiff, hm']
  | some m =>
    have hm' : (findMeaningfulPrompts lines)[idx]? = some m := by
      rw [← List.get?_eq_getElem?]
      exact hm
    have hkeys := reconLoop_keys m.1 (windowEnd lines idx) (extractToolCalls lines)
      ⟨snapshots, [], []⟩ rfl
    have h1 : (reconstructPromptDiff lines snapshots idx).1 =
        (reconLoop m.1 (windowEnd lines idx) (extractToolCalls lines)
          ⟨snapshots, [], []⟩).beforeFiles := by
      simp [reconstructPromptDiff, hm']
    have h2 : (reconstructPromptDiff lines snapshots idx).2 =
        (reconLoop m.1 (windowEnd lines idx) (extractToolCalls lines)
          ⟨snapshots, [], []⟩).filesInPrompt.map
          (fun fp => (fp, (fsGet (reconLoop m.1 (windowEnd lines idx)
            (extractToolCalls lines) ⟨snapshots, [], []⟩).fileStates fp).getD "")) := by
      simp [reconstructPromptDiff, hm']
    rw [h1, h2, hkeys, List.map_map]
    simp [Function.comp_def]

/-- C2 counterexample: in the scenario log with an empty checkpoint store,
`/a.py` is first mutated inside window 1, no checkpoint exists for it, yet
the returned before value is `"v1"` (the replay of the window-0 Write), not
the empty string the claim requires. -/
theorem before_uses_replay_not_checkpoint :
    fsGet (reconstructPromptDiff demoLog [] 1).1 "/a.py" ≠ some ""
    ∧ fsGet (reconstructPromptDiff demoLog [] 1).1 "/a.py" = some "v1" := by
  constructor <;> decide
